import Mathlib

set_option maxRecDepth 100000

/-!
Shallow embedding of the ieee754toy decimal-to-IEEE754 conversion pipeline
(IEEE754.h together with the numerical parser), specialized to the
double-precision instantiation IEEE754Traits with Mantissa = uint64,
Exponent = int32, ReducedMantissa = uint128, mantissaBits = 52 and
exponentBits = 11.  Unsigned machine integers are modelled as Nat with an
explicit `% 2 ^ 128` (resp. `% 2 ^ 64`) wherever the C++ unsigned arithmetic
may wrap; signed exponents are modelled as Int.  Each C++ while-loop of the
base converter is modelled with an explicit fuel argument returning an
Option: `none` means the loop has not finished within `fuel` iterations.
-/

namespace Ieee754toy

/-! ### Format constants (IEEE754Traits<double> / IEEE754BinaryNumber) -/

/-- Number of mantissa bits of the double format. -/
def mantissaBits : Nat := 52

/-- Number of exponent bits of the double format. -/
def exponentBits : Nat := 11

/-- Base exponent (bias): (1 <<< (exponentBits - 1)) - 1 = 1023. -/
def exponentBase : Int := 1023

/-- Maximum exponent value: (1 <<< exponentBits) - exponentBase - 2 = 1023. -/
def exponentMax : Int := 1023

/-- Minimum exponent value: 1 - exponentBase = -1022. -/
def exponentMin : Int := -1022

/-- Base exponent for subnormal numbers: 1 - exponentBase = -1022. -/
def exponentSubnormalBase : Int := -1022

/-- Minimum overall subnormal exponent: exponentSubnormalBase - mantissaBits = -1074. -/
def exponentSubnormalMin : Int := -1074

/-- Bits of precision of the ReducedMantissa accumulator (sizeof(uint128) * 8). -/
def reducedMantissaBits : Int := 128

/-- numeric_limits<uint128>::max(). -/
def u128max : Nat := 2 ^ 128 - 1

/-- numeric_limits<uint64>::max(). -/
def u64max : Nat := 2 ^ 64 - 1

/-- numeric_limits<int32>::max(), the range bound of the Exponent type. -/
def int32max : Int := 2147483647

/-! ### The shared narrowing primitive -/

/-- C++ divideBy (IEEE754.h): divide `number` by `divisor`; the exact
half-way case (remainder equal to divisor / 2) rounds the quotient to
the even neighbour, `(number & 1) != 0` modelled as `q &&& 1 ≠ 0`. -/
def divideBy (number divisor : Nat) : Nat :=
  if number % divisor ≠ divisor / 2 then
    number / divisor
  else
    let q := number / divisor
    if q &&& 1 ≠ 0 then q + 1 else q

/-- Claim-side definition following the glossary of the spec: the integer
nearest to n / d, values exactly halfway between two representable results
rounding toward the even one. -/
def roundNearestTiesEven (n d : Nat) : Nat :=
  let q := n / d
  let r := n % d
  if 2 * r < d then q
  else if d < 2 * r then q + 1
  else if q % 2 = 0 then q else q + 1

/-! ### The bit packer (IEEE754BinaryNumber) -/

/-- C++ IEEE754BinaryNumber::number: pack sign, mantissa and exponent into
the uint64 layout [sign][exponentBits][mantissaBits].  The C++ cast
static_cast<uint64>(int32 exponent) is the two's-complement value
`(exponent % 2 ^ 64).toNat`, and the uint64 shift wraps modulo 2 ^ 64. -/
def number (negative : Bool) (mantissa : Nat) (exponent : Int) : Nat :=
  let negativePart : Nat := if negative then 2 ^ (mantissaBits + exponentBits) else 0
  let exponentPart : Nat := (exponent % (2 ^ 64 : Int)).toNat * 2 ^ mantissaBits % 2 ^ 64
  let mantissaPart : Nat := mantissa % 2 ^ 64
  negativePart ||| exponentPart ||| mantissaPart

/-- C++ IEEE754BinaryNumber::zero. -/
def zero (negative : Bool) : Nat := number negative 0 0

/-- C++ IEEE754BinaryNumber::infinity. -/
def infinity (negative : Bool) : Nat :=
  number negative 0 ((1 <<< exponentBits : Int) - 1)

/-- C++ IEEE754BinaryNumber::nan. -/
def nan : Nat := number false 1 ((1 <<< exponentBits : Int) - 1)

/-! ### The exploded numbers (IEEE754Number) -/

/-- IEEE754Number<double, 10>: sign, uint64 mantissa, int32 base-10 exponent. -/
structure DecimalNumber where
  negative : Bool
  mantissa : Nat
  exponent : Int
deriving DecidableEq

/-- IEEE754Number<double, 2>: sign, uint64 mantissa, int32 base-2 exponent. -/
structure BinaryNumber where
  negative : Bool
  mantissa : Nat
  exponent : Int
deriving DecidableEq

/-- C++ IEEE754Number::toIEEE754 (only for base-2 numbers): final packing.
The test `(mantissa & (1 << mantissaBits)) != 0` is `Nat.testBit`, and
`mantissa & ~(1 << mantissaBits)` is the and-mask with the complemented
uint64 bit, `(2 ^ 64 - 1) ^^^ 2 ^ mantissaBits`. -/
def toIEEE754 (b : BinaryNumber) : Nat :=
  if b.mantissa = 0 ∨ b.exponent < exponentSubnormalMin then
    zero b.negative
  else if exponentMax < b.exponent then
    infinity b.negative
  else if Nat.testBit b.mantissa mantissaBits then
    number b.negative (b.mantissa &&& ((2 ^ 64 - 1) ^^^ 2 ^ mantissaBits))
      (b.exponent + exponentBase)
  else
    number b.negative b.mantissa 0

/-! ### Base conversion (IEEE754Number::convertTwobase and its helpers) -/

/-- Loop state of convertTwobase: the uint128 accumulator and the two
int32 exponents. -/
structure ConvState where
  varmantissa : Nat
  tenexponent : Int
  twoexponent : Int
deriving DecidableEq

/-- C++ IEEE754Number::decreaseTenExponent<tenFactor, twoFactor>: one while
loop, one fuel unit per iteration.  The overflow bail-out `return` (signed
infinity) ends the whole call with tenexponent = 0, varmantissa = 1,
twoexponent = exponentMax + 1. -/
def decreaseTenExponent (tenFactor twoFactor : Nat) : Nat → ConvState → Option ConvState
  | 0, _ => none
  | fuel + 1, s =>
    if (tenFactor : Int) ≤ s.tenexponent then
      if u128max / 2 ^ twoFactor < s.varmantissa then
        if exponentMax < s.twoexponent + twoFactor then
          some ⟨1, 0, exponentMax + 1⟩
        else
          decreaseTenExponent tenFactor twoFactor fuel
            ⟨divideBy s.varmantissa (2 ^ twoFactor) * 10 ^ tenFactor % 2 ^ 128,
              s.tenexponent - tenFactor, s.twoexponent + twoFactor⟩
      else
        decreaseTenExponent tenFactor twoFactor fuel
          ⟨s.varmantissa * 10 ^ tenFactor % 2 ^ 128, s.tenexponent - tenFactor, s.twoexponent⟩
    else some s

/-- Result of the inner while loop of increaseTenExponent: either the whole
member function returned (the "guaranteed underflow" bail-out), or the inner
loop exited normally and the outer loop continues. -/
inductive InnerResult where
  | returned (s : ConvState) : InnerResult
  | exited (s : ConvState) : InnerResult
deriving DecidableEq

/-- Inner while loop of C++ IEEE754Number::increaseTenExponent: multiply the
accumulator by 2 ^ twoFactor while there is room on the left.  The underflow
guard compares twoexponent with exponentSubnormalMin - reducedMantissaBits +
twoexponent, exactly as in the source. -/
def increaseInner (twoFactor : Nat) : Nat → ConvState → Option InnerResult
  | 0, _ => none
  | fuel + 1, s =>
    if s.varmantissa ≤ u128max / 2 ^ twoFactor then
      if s.twoexponent < exponentSubnormalMin - reducedMantissaBits + s.twoexponent then
        some (.returned ⟨0, 0, 0⟩)
      else
        increaseInner twoFactor fuel
          ⟨s.varmantissa * 2 ^ twoFactor % 2 ^ 128, s.tenexponent, s.twoexponent - twoFactor⟩
    else some (.exited s)

/-- C++ IEEE754Number::increaseTenExponent<tenFactor, twoFactor>: the outer
while loop; each iteration runs the inner loop, then divides the accumulator
by 10 ^ tenFactor with divideBy and increases the ten-exponent. -/
def increaseTenExponent (tenFactor twoFactor : Nat) : Nat → ConvState → Option ConvState
  | 0, _ => none
  | fuel + 1, s =>
    if s.tenexponent ≤ -(tenFactor : Int) then
      match increaseInner twoFactor (fuel + 1) s with
      | none => none
      | some (.returned s2) => some s2
      | some (.exited s2) =>
        increaseTenExponent tenFactor twoFactor fuel
          ⟨divideBy s2.varmantissa (10 ^ tenFactor), s2.tenexponent + tenFactor, s2.twoexponent⟩
    else some s

/-- The four decreasing / four increasing large-step calls of convertTwobase. -/
def eliminateTenExponent (fuel : Nat) (s : ConvState) : Option ConvState :=
  if 0 < s.tenexponent then
    (decreaseTenExponent 9 30 fuel s).bind (decreaseTenExponent 6 20 fuel) |>.bind
      (decreaseTenExponent 3 10 fuel) |>.bind (decreaseTenExponent 1 4 fuel)
  else if s.tenexponent < 0 then
    (increaseTenExponent 9 30 fuel s).bind (increaseTenExponent 6 20 fuel) |>.bind
      (increaseTenExponent 3 10 fuel) |>.bind (increaseTenExponent 1 4 fuel)
  else some s

/-- First normalization while loop of convertTwobase: halve the accumulator
(with divideBy) while it occupies at least mantissaBits + 1 bits,
incrementing the position. -/
def normalizeDown : Nat → Nat → Int → Option (Nat × Int)
  | 0, v, p =>
    if 2 ^ (mantissaBits + 1) ≤ v then none else some (v, p)
  | fuel + 1, v, p =>
    if 2 ^ (mantissaBits + 1) ≤ v then normalizeDown fuel (divideBy v 2) (p + 1)
    else some (v, p)

/-- Second normalization while loop of convertTwobase: double the accumulator
while the leading bit is below position mantissaBits and the exponent has not
reached exponentMin, decrementing the position. -/
def normalizeUp : Nat → Nat → Int → Int → Option (Nat × Int)
  | 0, v, p, two =>
    if v < 2 ^ mantissaBits ∧ exponentMin < two + p then none else some (v, p)
  | fuel + 1, v, p, two =>
    if v < 2 ^ mantissaBits ∧ exponentMin < two + p then
      normalizeUp fuel (v * 2) (p - 1) two
    else some (v, p)

/-- Last while loop of convertTwobase: halve the accumulator (with divideBy)
while the two-exponent is still below exponentMin. -/
def clampExponentLow : Nat → Nat → Int → Option (Nat × Int)
  | 0, v, two =>
    if two < exponentMin then none else some (v, two)
  | fuel + 1, v, two =>
    if two < exponentMin then clampExponentLow fuel (divideBy v 2) (two + 1)
    else some (v, two)

/-- Tail of convertTwobase after the ten-exponent has been eliminated: the
zero early return and the three normalization loops; the final uint128
accumulator is narrowed to the uint64 mantissa field. -/
def finishTwobase (fuel : Nat) (negative : Bool) (s : ConvState) : Option BinaryNumber :=
  if s.varmantissa = 0 then some ⟨negative, 0, 0⟩
  else
    (normalizeDown fuel s.varmantissa (mantissaBits + 1 - 1 : Nat)).bind fun v1 =>
      (normalizeUp fuel v1.1 v1.2 s.twoexponent).bind fun v2 =>
        (clampExponentLow fuel v2.1 (s.twoexponent + v2.2)).map fun v3 =>
          ⟨negative, v3.1 % 2 ^ 64, v3.2⟩

/-- C++ IEEE754Number<double, 10>::convertTwobase. -/
def convertTwobase (fuel : Nat) (d : DecimalNumber) : Option BinaryNumber :=
  (eliminateTenExponent fuel ⟨d.mantissa, d.exponent, 0⟩).bind (finishTwobase fuel d.negative)

/-! ### The numerical parser (NumericalParser), characters as integral codes -/

/-- C++ NumericalParser::toLower. -/
def toLowerChar (c : Nat) : Nat := if 65 ≤ c ∧ c ≤ 90 then c + 32 else c

/-- C++ NumericalParser::operator== against an ASCII literal,
case-insensitive, length-checked. -/
def eqNoCase (s t : List Nat) : Bool :=
  s.length == t.length &&
    (List.zip s t).all fun p => toLowerChar p.1 == toLowerChar p.2

/-- Loop state of NumericalParser::parseMantissa. -/
structure MantissaState where
  mantissa : Nat
  exponent : Int
  negative : Bool
  stopExponent : Bool
  stopMantissa : Bool
  digits : Bool

/-- One digit step of parseMantissa: the overflow test against
numeric_limits<uint64>::max, the accumulation, the exponent bump for
discarded digits and the round-half-to-even adjustment on the first
discarded digit.  The constexpr test max % 10 + 1 >= 5 is true for uint64,
so the extra increment after the wrap to max / 10 is always compiled in.
The increment `++mantissa` wraps modulo 2 ^ 64. -/
def parseMantissaDigit (digit : Nat) (st : MantissaState) : MantissaState :=
  let justStopped : Bool :=
    !st.stopMantissa && decide (u64max / 10 ≤ st.mantissa) &&
      (decide (u64max / 10 < st.mantissa) ||
        (decide (st.mantissa = u64max / 10) && decide ((u64max - digit) / 10 < st.mantissa)))
  let stopMantissa := st.stopMantissa || justStopped
  let st1 :=
    if !stopMantissa then
      { st with mantissa := st.mantissa * 10 + digit, stopMantissa }
    else
      let st2 := { st with exponent := st.exponent + 1, stopMantissa }
      if justStopped && (decide (5 < digit) || (decide (digit = 5) && decide (st.mantissa &&& 1 ≠ 0))) then
        if (st2.mantissa + 1) % 2 ^ 64 = 0 then
          { st2 with mantissa := u64max / 10 + 1, exponent := st2.exponent + 1 }
        else { st2 with mantissa := st2.mantissa + 1 }
      else st2
  let st1 := { st1 with digits := true }
  if st1.stopExponent then { st1 with exponent := st1.exponent - 1 } else st1

/-- Loop of C++ NumericalParser::parseMantissa: the index runs up to the
size inclusive; past the end the character is the 0 sentinel, which falls
into the default switch branch, so the empty rest of the list is handled by
that branch directly. -/
def parseMantissaGo : List Nat → Nat → MantissaState → Nat × DecimalNumber
  | [], i, st =>
    if st.digits then (i, ⟨st.negative, st.mantissa, st.exponent⟩) else (0, ⟨false, 0, 0⟩)
  | c :: rest, i, st =>
    if 48 ≤ c ∧ c ≤ 57 then
      parseMantissaGo rest (i + 1) (parseMantissaDigit (c - 48) st)
    else if c = 43 ∨ c = 45 then
      if i ≠ 0 then (0, ⟨false, 0, 0⟩)
      else parseMantissaGo rest (i + 1) { st with negative := c = 45 }
    else if c = 46 then
      if st.stopExponent then (0, ⟨false, 0, 0⟩)
      else parseMantissaGo rest (i + 1) { st with stopExponent := true }
    else if st.digits then (i, ⟨st.negative, st.mantissa, st.exponent⟩)
    else (0, ⟨false, 0, 0⟩)

/-- C++ NumericalParser::parseMantissa. -/
def parseMantissa (s : List Nat) : Nat × DecimalNumber :=
  parseMantissaGo s 0 ⟨0, 0, false, false, false, false⟩

/-- Loop of C++ NumericalParser::parseExponent, same sentinel convention as
parseMantissaGo.  The overflow guard is the int32 test of the source. -/
def parseExponentGo : List Nat → Nat → Int → Bool → Nat × Int
  | [], i, exponent, negative => (i, if negative then -exponent else exponent)
  | c :: rest, i, exponent, negative =>
    if 48 ≤ c ∧ c ≤ 57 then
      let digit : Int := (c : Int) - 48
      if (int32max / 10 - 1 ≤ exponent) ∧
          (int32max / 10 < exponent ∨ int32max - digit < exponent * 10) then
        (0, 0)
      else parseExponentGo rest (i + 1) (exponent * 10 + digit) negative
    else if c = 43 ∨ c = 45 then
      if i ≠ 0 then (0, 0)
      else parseExponentGo rest (i + 1) exponent (c = 45)
    else (i, if negative then -exponent else exponent)

/-- C++ NumericalParser::parseExponent. -/
def parseExponent (s : List Nat) : Nat × Int :=
  parseExponentGo s 0 0 false

/-- C++ NumericalParser::parseMantissaExponent: parseMantissa, then an
optional e/E followed by parseExponent on the rest, its exponent added to
the mantissa's exponent. -/
def parseMantissaExponent (s : List Nat) : Nat × DecimalNumber :=
  let r := parseMantissa s
  if r.1 = 0 then (0, ⟨false, 0, 0⟩)
  else
    let c := s.getD r.1 0
    if c = 101 ∨ c = 69 then
      let parsed1 := r.1 + 1
      let re := parseExponent (s.drop parsed1)
      if re.1 = 0 then (0, ⟨false, 0, 0⟩)
      else (parsed1 + re.1, ⟨r.2.negative, r.2.mantissa, r.2.exponent + re.2⟩)
    else r

/-- Character codes of the literal Inf. -/
def infCodes : List Nat := [73, 110, 102]

/-- Character codes of the literal +Inf. -/
def plusInfCodes : List Nat := [43, 73, 110, 102]

/-- Character codes of the literal -Inf. -/
def negInfCodes : List Nat := [45, 73, 110, 102]

/-- Character codes of the literal NaN. -/
def nanCodes : List Nat := [78, 97, 78]

/-- C++ NumericalParser::toAnyDouble (and toDouble, which merely forwards):
the returned floating value is represented by its IEEE754 bit pattern, since
toFloat is a same-width bit reinterpretation; the Bool is the error flag.
On error the C++ function returns N{} = +0.0, bit pattern 0. -/
def toAnyDouble (fuel : Nat) (s : List Nat) : Option (Nat × Bool) :=
  let r := parseMantissaExponent s
  if r.1 = s.length then
    (convertTwobase fuel r.2).map fun b => (toIEEE754 b, false)
  else if eqNoCase s infCodes || eqNoCase s plusInfCodes then some (infinity false, false)
  else if eqNoCase s negInfCodes then some (infinity true, false)
  else if eqNoCase s nanCodes then some (nan, false)
  else some (0, true)

/-! ### Claim C1: the rounding behaviour of divideBy -/

/-- Claim C1, counterexample: divideBy does not return the integer nearest
to n / d.  At n = 7, d = 4 the rational quotient 1.75 is nearest to 2 (and
7 % 4 = 3 is not the half-way remainder 2), but divideBy truncates to 1,
differing from the glossary's round-half-to-even. -/
theorem divideBy_not_nearest_at_7_4 :
    divideBy 7 4 = 1 ∧ roundNearestTiesEven 7 4 = 2 ∧ divideBy 7 4 ≠ roundNearestTiesEven 7 4 := by
  decide

/-- Claim C1 (amended): for every n and every divisor d, divideBy n d is the
truncated quotient n / d, except in the exact half-way case n % d = d / 2
where the result is even and is one of the two neighbours n / d and
n / d + 1 (hence the even one of the two). -/
theorem divideBy_trunc_ties_to_even (n d : Nat) :
    (n % d ≠ d / 2 → divideBy n d = n / d) ∧
    (n % d = d / 2 →
      divideBy n d % 2 = 0 ∧ (divideBy n d = n / d ∨ divideBy n d = n / d + 1)) := by
  constructor
  · intro h
    simp [divideBy, h]
  · intro h
    have hd : divideBy n d = if n / d % 2 = 0 then n / d else n / d + 1 := by
      rw [divideBy, if_neg (by simp [h])]
      simp only [Nat.and_one_is_mod]
      rcases Nat.mod_two_eq_zero_or_one (n / d) with h2 | h2 <;> simp [h2]
    by_cases hq : n / d % 2 = 0
    · rw [hd, if_pos hq]
      exact ⟨hq, Or.inl rfl⟩
    · rw [hd, if_neg hq]
      exact ⟨by omega, Or.inr rfl⟩

/-- Witness for divideBy_trunc_ties_to_even at the half-way input n = 6,
d = 4. -/
theorem divideBy_trunc_ties_to_even_witness :
    divideBy 6 4 % 2 = 0 ∧ (divideBy 6 4 = 6 / 4 ∨ divideBy 6 4 = 6 / 4 + 1) :=
  (divideBy_trunc_ties_to_even 6 4).2 (by decide)

/-! ### Claim C2: termination of convertTwobase -/

/-- With a zero accumulator the inner while loop of increaseTenExponent
never exits: the headroom condition always holds for 0 and the underflow
guard twoexponent < exponentSubnormalMin - reducedMantissaBits + twoexponent
is false for every twoexponent. -/
theorem increaseInner_zero_accumulator (fuel : Nat) (ten two : Int) :
    increaseInner 4 fuel ⟨0, ten, two⟩ = none := by
  induction fuel generalizing two with
  | zero => rfl
  | succ f ih =>
    rw [increaseInner]
    rw [if_pos (by exact Nat.zero_le _)]
    rw [if_neg (by simp only [exponentSubnormalMin, reducedMantissaBits]; omega)]
    simpa using ih (two - 4)

/-- The single-step increaseTenExponent loop never finishes on a zero
accumulator with tenexponent = -1, whatever the fuel. -/
theorem increaseTenExponent_zero_accumulator (fuel : Nat) :
    increaseTenExponent 1 4 fuel ⟨0, -1, 0⟩ = none := by
  cases fuel with
  | zero => rfl
  | succ f =>
    rw [increaseTenExponent]
    rw [if_pos (by norm_num)]
    rw [increaseInner_zero_accumulator]

/-- Claim C2 (code bug): convertTwobase does not terminate on every
DecimalNumber.  The literal 0.0 parses to mantissa 0 with base-10 exponent
-1, and on that input the loop interpreter returns none for every amount of
fuel: the inner while loop of increaseTenExponent keeps the accumulator at
zero forever, and its underflow bail-out can never fire. -/
theorem convertTwobase_diverges_on_zero_mantissa (fuel : Nat) :
    parseMantissaExponent [48, 46, 48] = (3, ⟨false, 0, -1⟩) ∧
    convertTwobase fuel ⟨false, 0, -1⟩ = none := by
  refine ⟨by decide, ?_⟩
  show (eliminateTenExponent fuel ⟨0, -1, 0⟩).bind (finishTwobase fuel false) = none
  have h : eliminateTenExponent fuel ⟨0, -1, 0⟩ = none := by
    unfold eliminateTenExponent
    rw [if_neg (by norm_num), if_pos (by norm_num)]
    cases fuel with
    | zero => rfl
    | succ f =>
      have h930 : increaseTenExponent 9 30 (f + 1) ⟨0, -1, 0⟩ = some ⟨0, -1, 0⟩ := by
        rw [increaseTenExponent, if_neg (by norm_num)]
      have h620 : increaseTenExponent 6 20 (f + 1) ⟨0, -1, 0⟩ = some ⟨0, -1, 0⟩ := by
        rw [increaseTenExponent, if_neg (by norm_num)]
      have h310 : increaseTenExponent 3 10 (f + 1) ⟨0, -1, 0⟩ = some ⟨0, -1, 0⟩ := by
        rw [increaseTenExponent, if_neg (by norm_num)]
      rw [h930, Option.some_bind, h620, Option.some_bind, h310, Option.some_bind,
        increaseTenExponent_zero_accumulator]
  rw [h]
  rfl

/-! ### Claim C6: the NaN pattern -/

/-- Claim C6, counterexample: nan() is 0x7FF0000000000001; its mantissa
field is the nonzero value 1, but the most significant mantissa-field bit
(bit 51, the quiet bit) is not set, contradicting the claim. -/
theorem nan_quiet_bit_not_set :
    nan = 0x7FF0000000000001 ∧ Nat.testBit nan 51 = false := by decide

/-- Claim C6 (amended): nan() returns the single pattern whose exponent
field is all-ones and whose mantissa field is the nonzero value 1 (only the
least significant mantissa bit set); the most significant mantissa-field
bit is clear. -/
theorem nan_pattern_fields :
    nan / 2 ^ mantissaBits % 2 ^ exponentBits = 2 ^ exponentBits - 1 ∧
    nan % 2 ^ mantissaBits = 1 ∧
    Nat.testBit nan (mantissaBits - 1) = false ∧
    Nat.testBit nan (mantissaBits + exponentBits) = false := by decide

/-! ### Claim C7: round-half-to-even at the 64-bit mantissa boundary -/

/-- Character codes of the literal 18446744073709551615 (2 ^ 64 - 1). -/
def maxMantissaCodes : List Nat :=
  [49, 56, 52, 52, 54, 55, 52, 52, 48, 55, 51, 55, 48, 57, 53, 53, 49, 54, 49, 53]

/-- Character codes of the literal 18446744073709551616 (2 ^ 64). -/
def maxMantissaSuccCodes : List Nat :=
  [49, 56, 52, 52, 54, 55, 52, 52, 48, 55, 51, 55, 48, 57, 53, 53, 49, 54, 49, 54]

/-- Claim C7: 18446744073709551615 parses exactly with exponent 0, while
18446744073709551616 rounds the retained mantissa half-to-even to
1844674407370955162 with exponent 1. -/
theorem parseMantissaExponent_overflow_boundary :
    parseMantissaExponent maxMantissaCodes = (20, ⟨false, 18446744073709551615, 0⟩) ∧
    parseMantissaExponent maxMantissaSuccCodes = (20, ⟨false, 1844674407370955162, 1⟩) := by
  decide

/-! ### Claim C3: failure conditions of parseExponent -/

/-- Integer value denoted by a list of ASCII digit codes. -/
def digitsVal : List Nat → Int
  | [] => 0
  | c :: rest => ((c : Int) - 48) * 10 ^ rest.length + digitsVal rest

theorem digitsVal_nonneg (ds : List Nat) (h : ∀ c ∈ ds, 48 ≤ c ∧ c ≤ 57) :
    0 ≤ digitsVal ds := by
  induction ds with
  | nil => simp [digitsVal]
  | cons c rest ih =>
    have hc := h c (List.mem_cons_self c rest)
    have hr := ih fun x hx => h x (List.mem_cons_of_mem c hx)
    have hp : (0 : Int) ≤ 10 ^ rest.length := by positivity
    have : (0 : Int) ≤ ((c : Int) - 48) * 10 ^ rest.length := by
      apply mul_nonneg _ hp
      omega
    simp only [digitsVal]
    omega

/-- True when the character code is an ASCII digit. -/
def isDigitCode (c : Nat) : Bool := decide (48 ≤ c ∧ c ≤ 57)

/-- True when the character code is an explicit plus or minus sign. -/
def isSignCode (c : Nat) : Bool := decide (c = 43 ∨ c = 45)

/-- Length (0 or 1) of the optional leading sign of an exponent string. -/
def expSignLen (s : List Nat) : Nat := if isSignCode (s.headD 0) then 1 else 0

/-- Whether the optional leading sign of an exponent string is a minus. -/
def expNegative (s : List Nat) : Bool := decide (s.headD 0 = 45)

/-- The digit run following the optional leading sign. -/
def expDigits (s : List Nat) : List Nat := (s.drop (expSignLen s)).takeWhile isDigitCode

/-- The remainder of the string after the digit run. -/
def expRest (s : List Nat) : List Nat := (s.drop (expSignLen s)).dropWhile isDigitCode

theorem digits_of_takeWhile (l : List Nat) :
    ∀ c ∈ l.takeWhile isDigitCode, 48 ≤ c ∧ c ≤ 57 := by
  intro c hc
  have h := List.mem_takeWhile_imp hc
  simpa [isDigitCode] using h

/-- Past position 0 the parseExponent loop consumes the maximal digit run of
the remaining input: it fails as soon as the accumulated value would exceed
int32max, fails if the run is followed by a sign character, and otherwise
returns the position past the run and the signed accumulated value. -/
theorem parseExponentGo_run (l : List Nat) : ∀ (i : Nat) (e : Int) (neg : Bool),
    0 < i → 0 ≤ e → e ≤ int32max →
    parseExponentGo l i e neg =
      if int32max < e * 10 ^ (l.takeWhile isDigitCode).length +
          digitsVal (l.takeWhile isDigitCode) then (0, 0)
      else if isSignCode ((l.dropWhile isDigitCode).headD 0) then (0, 0)
      else (i + (l.takeWhile isDigitCode).length,
        if neg then
          -(e * 10 ^ (l.takeWhile isDigitCode).length + digitsVal (l.takeWhile isDigitCode))
        else e * 10 ^ (l.takeWhile isDigitCode).length + digitsVal (l.takeWhile isDigitCode)) := by
  induction l with
  | nil =>
    intro i e neg hi he0 he1
    show (i, if neg then -e else e) = _
    simp only [List.takeWhile_nil, List.dropWhile_nil, List.length_nil, digitsVal, pow_zero,
      mul_one, add_zero, List.headD_nil]
    have hsig : ¬ (isSignCode 0 = true) := by simp [isSignCode]
    rw [if_neg (not_lt.mpr he1), if_neg hsig]
  | cons c t ih =>
    intro i e neg hi he0 he1
    rw [show parseExponentGo (c :: t) i e neg =
        (if 48 ≤ c ∧ c ≤ 57 then
          if (int32max / 10 - 1 ≤ e) ∧
              (int32max / 10 < e ∨ int32max - ((c : Int) - 48) < e * 10) then (0, 0)
          else parseExponentGo t (i + 1) (e * 10 + ((c : Int) - 48)) neg
        else if c = 43 ∨ c = 45 then
          if i ≠ 0 then (0, 0)
          else parseExponentGo t (i + 1) e (c = 45)
        else (i, if neg then -e else e)) from rfl]
    by_cases hc : 48 ≤ c ∧ c ≤ 57
    · rw [if_pos hc]
      have hdc : isDigitCode c = true := by simp [isDigitCode, hc]
      rw [List.takeWhile_cons_of_pos hdc, List.dropWhile_cons_of_pos hdc]
      have hcz : (48 : Int) ≤ (c : Int) ∧ (c : Int) ≤ 57 := by
        obtain ⟨h1, h2⟩ := hc
        exact ⟨by exact_mod_cast h1, by exact_mod_cast h2⟩
      have hvr : 0 ≤ digitsVal (t.takeWhile isDigitCode) :=
        digitsVal_nonneg _ (digits_of_takeWhile t)
      have hp1 : (1 : Int) ≤ 10 ^ (t.takeWhile isDigitCode).length :=
        one_le_pow₀ (by norm_num)
      have hval : digitsVal (c :: t.takeWhile isDigitCode) =
          ((c : Int) - 48) * 10 ^ (t.takeWhile isDigitCode).length +
            digitsVal (t.takeWhile isDigitCode) := rfl
      have hlen : (c :: t.takeWhile isDigitCode).length =
          (t.takeWhile isDigitCode).length + 1 := rfl
      by_cases hover : int32max < e * 10 + ((c : Int) - 48)
      · rw [if_pos (by unfold int32max at hover he1 ⊢; omega)]
        have hbig : int32max < e * 10 ^ (c :: t.takeWhile isDigitCode).length +
            digitsVal (c :: t.takeWhile isDigitCode) := by
          rw [hval, hlen]
          have hnn : (0 : Int) ≤ e * 10 + ((c : Int) - 48) := by
            have := hcz.1
            omega
          calc int32max < e * 10 + ((c : Int) - 48) := hover
            _ ≤ (e * 10 + ((c : Int) - 48)) * 10 ^ (t.takeWhile isDigitCode).length :=
              le_mul_of_one_le_right hnn hp1
            _ = e * 10 ^ ((t.takeWhile isDigitCode).length + 1) +
                ((c : Int) - 48) * 10 ^ (t.takeWhile isDigitCode).length := by ring
            _ ≤ e * 10 ^ ((t.takeWhile isDigitCode).length + 1) +
                (((c : Int) - 48) * 10 ^ (t.takeWhile isDigitCode).length +
                  digitsVal (t.takeWhile isDigitCode)) := by linarith
        rw [if_pos hbig]
      · rw [if_neg (by unfold int32max at hover he1 ⊢; omega)]
        rw [ih (i + 1) (e * 10 + ((c : Int) - 48)) neg (by omega) (by omega)
          (by unfold int32max at hover ⊢; omega)]
        have harith : (e * 10 + ((c : Int) - 48)) * 10 ^ (t.takeWhile isDigitCode).length +
            digitsVal (t.takeWhile isDigitCode) =
            e * 10 ^ (c :: t.takeWhile isDigitCode).length +
              digitsVal (c :: t.takeWhile isDigitCode) := by
          rw [hval, hlen]
          ring
        rw [harith, show i + 1 + (t.takeWhile isDigitCode).length =
          i + (c :: t.takeWhile isDigitCode).length from by rw [hlen]; omega]
    · rw [if_neg hc]
      have hdc : isDigitCode c = false := by
        simp only [isDigitCode, decide_eq_false_iff_not]
        exact hc
      rw [List.takeWhile_cons_of_neg (by simp [hdc]), List.dropWhile_cons_of_neg (by simp [hdc])]
      simp only [List.length_nil, digitsVal, pow_zero, mul_one, add_zero, List.headD_cons]
      rw [if_neg (not_lt.mpr he1)]
      by_cases hs : c = 43 ∨ c = 45
      · have hsc : isSignCode c = true := by simp [isSignCode, hs]
        rw [if_pos hs, if_pos (show i ≠ 0 from by omega), if_pos hsc]
      · have hsc : ¬ (isSignCode c = true) := by simp [isSignCode, hs]
        rw [if_neg hs, if_neg hsc]

/-- Claim C3, counterexample: on the input consisting of the single sign
character + with no digit following, parseExponent does not fail: it
consumes the sign and returns exponent 0 (consumed length 1, not 0). -/
theorem parseExponent_sign_without_digits :
    parseExponent [43] = (1, 0) ∧ (parseExponent [43]).1 ≠ 0 := by decide

/-- Claim C3 (amended): for every input string, parseExponent fails
(consumed length 0, exponent 0) exactly when the accumulated magnitude of
the digit run following the optional leading sign would exceed int32max,
the range bound of the signed exponent type — overflow is reported, never
saturated or clamped —, or the first character is neither a digit nor a
sign (the empty input included), or the digit run is followed by a further
sign character; in every other case it consumes the optional sign and the
digit run and returns the signed value of those digits, so a sign followed
by no digit is consumed successfully with exponent 0 rather than failing. -/
theorem parseExponent_characterization (s : List Nat) :
    parseExponent s =
      if s = [] ∨ (isDigitCode (s.headD 0) = false ∧ isSignCode (s.headD 0) = false) then
        (0, 0)
      else if int32max < digitsVal (expDigits s) then (0, 0)
      else if isSignCode ((expRest s).headD 0) then (0, 0)
      else (expSignLen s + (expDigits s).length,
        if expNegative s then -digitsVal (expDigits s) else digitsVal (expDigits s)) := by
  cases s with
  | nil =>
    rw [if_pos (Or.inl rfl)]
    rfl
  | cons c t =>
    rw [parseExponent, show parseExponentGo (c :: t) 0 0 false =
        (if 48 ≤ c ∧ c ≤ 57 then
          if (int32max / 10 - 1 ≤ (0 : Int)) ∧
              (int32max / 10 < (0 : Int) ∨ int32max - ((c : Int) - 48) < 0 * 10) then (0, 0)
          else parseExponentGo t (0 + 1) (0 * 10 + ((c : Int) - 48)) false
        else if c = 43 ∨ c = 45 then
          if (0 : Nat) ≠ 0 then (0, 0)
          else parseExponentGo t (0 + 1) (0 : Int) (c = 45)
        else ((0 : Nat), if false then -(0 : Int) else (0 : Int))) from rfl]
    by_cases hc : 48 ≤ c ∧ c ≤ 57
    · have hdc : isDigitCode c = true := by simp [isDigitCode, hc]
      have hns : isSignCode c = false := by
        simp only [isSignCode, decide_eq_false_iff_not]
        omega
      have hcz : (48 : Int) ≤ (c : Int) ∧ (c : Int) ≤ 57 := by
        obtain ⟨h1, h2⟩ := hc
        exact ⟨by exact_mod_cast h1, by exact_mod_cast h2⟩
      have hsl : expSignLen (c :: t) = 0 := by simp [expSignLen, hns]
      have hdig : expDigits (c :: t) = c :: t.takeWhile isDigitCode := by
        simp [expDigits, hsl, List.takeWhile_cons_of_pos hdc]
      have hrest : expRest (c :: t) = t.dropWhile isDigitCode := by
        simp [expRest, hsl, List.dropWhile_cons_of_pos hdc]
      have hneg : expNegative (c :: t) = false := by
        simp only [expNegative, List.headD_cons, decide_eq_false_iff_not]
        omega
      have hguard : ¬ ((int32max / 10 - 1 ≤ (0 : Int)) ∧
          (int32max / 10 < (0 : Int) ∨ int32max - ((c : Int) - 48) < 0 * 10)) := by
        unfold int32max
        omega
      have hhead : ¬ ((c :: t) = [] ∨ (isDigitCode ((c :: t).headD 0) = false ∧
          isSignCode ((c :: t).headD 0) = false)) := by
        simp [List.headD_cons, hdc]
      rw [if_pos hc, if_neg hguard, if_neg hhead]
      rw [parseExponentGo_run t (0 + 1) (0 * 10 + ((c : Int) - 48)) false (by omega)
        (by omega) (by unfold int32max; omega)]
      rw [hdig, hrest, hsl, hneg]
      rw [show (0 : Int) * 10 + ((c : Int) - 48) = (c : Int) - 48 from by ring]
      rw [show digitsVal (c :: t.takeWhile isDigitCode) =
        ((c : Int) - 48) * 10 ^ (t.takeWhile isDigitCode).length +
          digitsVal (t.takeWhile isDigitCode) from rfl]
      rw [show (c :: t.takeWhile isDigitCode).length =
        1 + (t.takeWhile isDigitCode).length from by rw [List.length_cons]; omega]
      rw [Nat.zero_add, Nat.zero_add]
    · rw [if_neg hc]
      have hdc : isDigitCode c = false := by
        simp only [isDigitCode, decide_eq_false_iff_not]
        exact hc
      by_cases hs : c = 43 ∨ c = 45
      · have hsc : isSignCode c = true := by simp [isSignCode, hs]
        have hsl : expSignLen (c :: t) = 1 := by simp [expSignLen, hsc]
        have hdig : expDigits (c :: t) = t.takeWhile isDigitCode := by
          simp [expDigits, hsl]
        have hrest : expRest (c :: t) = t.dropWhile isDigitCode := by
          simp [expRest, hsl]
        have hneg : expNegative (c :: t) = decide (c = 45) := by
          simp [expNegative]
        have hhead : ¬ ((c :: t) = [] ∨ (isDigitCode ((c :: t).headD 0) = false ∧
            isSignCode ((c :: t).headD 0) = false)) := by
          simp [List.headD_cons, hsc]
        rw [if_pos hs, if_neg (show ¬ (0 : Nat) ≠ 0 from by omega), if_neg hhead]
        rw [parseExponentGo_run t (0 + 1) (0 : Int) (decide (c = 45)) (by omega)
          (by omega) (by unfold int32max; omega)]
        rw [hdig, hrest, hsl, hneg]
        rw [show (0 : Int) * 10 ^ (t.takeWhile isDigitCode).length +
          digitsVal (t.takeWhile isDigitCode) = digitsVal (t.takeWhile isDigitCode) from by
            ring]
      · rw [if_neg hs]
        rw [if_pos (Or.inr ⟨hdc, by
          simp only [List.headD_cons, isSignCode, decide_eq_false_iff_not]
          exact hs⟩)]
        simp

/-! ### Claim C4: the minimal positive subnormal double -/

/-- Character codes of the literal 4.9406564584124654E-324. -/
def minSubnormalCodes : List Nat :=
  [52, 46, 57, 52, 48, 54, 53, 54, 52, 53, 56, 52, 49, 50, 52, 54, 53, 52, 69, 45, 51, 50, 52]

/-- Character codes of the literal 4.9406564584124653E-324, a strictly
smaller positive magnitude. -/
def belowMinSubnormalCodes : List Nat :=
  [52, 46, 57, 52, 48, 54, 53, 54, 52, 53, 56, 52, 49, 50, 52, 54, 53, 51, 69, 45, 51, 50, 52]

/-- Character codes of the literal 4.9406564584124654E-325, ten times
smaller than the minimal positive subnormal. -/
def tenthMinSubnormalCodes : List Nat :=
  [52, 46, 57, 52, 48, 54, 53, 54, 52, 53, 56, 52, 49, 50, 52, 54, 53, 52, 69, 45, 51, 50, 53]

/-- Claim C4, counterexample: the literal 4.9406564584124653E-324 has a
strictly smaller positive magnitude than the minimal positive subnormal
literal (same exponent, mantissa smaller by one unit), yet the pipeline
yields the bit pattern 0x1, not 0x0. -/
theorem smaller_magnitude_not_zero :
    parseMantissaExponent belowMinSubnormalCodes = (23, ⟨false, 49406564584124653, -340⟩) ∧
    (convertTwobase 2000 ⟨false, 49406564584124653, -340⟩).map toIEEE754 = some 1 := by
  decide

/-- Claim C4 (amended): the literal 4.9406564584124654E-324 converts to the
bit pattern 0x1 through parseMantissaExponent, convertTwobase and toIEEE754,
and the ten-times-smaller literal 4.9406564584124654E-325 converts to the
pattern 0x0 — but not every literal of strictly smaller positive magnitude
yields 0x0. -/
theorem min_subnormal_conversion :
    parseMantissaExponent minSubnormalCodes = (23, ⟨false, 49406564584124654, -340⟩) ∧
    (convertTwobase 2000 ⟨false, 49406564584124654, -340⟩).map toIEEE754 = some 1 ∧
    parseMantissaExponent tenthMinSubnormalCodes = (23, ⟨false, 49406564584124654, -341⟩) ∧
    (convertTwobase 2000 ⟨false, 49406564584124654, -341⟩).map toIEEE754 = some 0 := by
  decide

/-! ### Claim C5: the case analysis of toIEEE754 -/

/-- The sign-only pattern: sign bit set when negative, all other bits zero. -/
def signOnlyPattern (negative : Bool) : Nat :=
  if negative then 2 ^ (mantissaBits + exponentBits) else 0

/-- Claim-side packing following the words of the spec: the four cases of
Claim C5, packing `sign | exponentField | mantissaField` with the fields in
range, the signed-zero pattern being the sign bit only, the signed-infinity
pattern having an all-ones exponent field and a zero mantissa field, the
normal case adding the bias to the exponent and stripping the implicit
leading mantissa bit, the subnormal case forcing a zero exponent field and
storing the mantissa verbatim. -/
def packedPerClaim (b : BinaryNumber) : Nat :=
  if b.mantissa = 0 ∨ b.exponent < exponentSubnormalMin then
    signOnlyPattern b.negative
  else if exponentMax < b.exponent then
    signOnlyPattern b.negative ||| (2 ^ exponentBits - 1) <<< mantissaBits
  else if Nat.testBit b.mantissa mantissaBits then
    signOnlyPattern b.negative ||| (b.exponent + exponentBase).toNat <<< mantissaBits |||
      b.mantissa % 2 ^ mantissaBits
  else
    signOnlyPattern b.negative ||| b.mantissa

theorem zero_eq_sign (neg : Bool) : zero neg = signOnlyPattern neg := by
  cases neg <;> decide

theorem infinity_eq_fields (neg : Bool) :
    infinity neg = signOnlyPattern neg ||| (2 ^ exponentBits - 1) <<< mantissaBits := by
  cases neg <;> decide

/-- The and-mask of toIEEE754 clears bit 52 and, for a mantissa of at most
53 bits, equals reduction modulo 2 ^ 52. -/
theorem land_not_bit52 (m : Nat) (hm : m < 2 ^ (mantissaBits + 1)) :
    m &&& ((2 ^ 64 - 1) ^^^ 2 ^ mantissaBits) = m % 2 ^ mantissaBits := by
  simp only [mantissaBits] at hm ⊢
  apply Nat.eq_of_testBit_eq
  intro i
  rw [Nat.testBit_land, Nat.testBit_xor, Nat.testBit_two_pow_sub_one,
    Nat.testBit_two_pow, Nat.testBit_mod_two_pow]
  by_cases h52 : i = 52
  · subst h52; simp
  · by_cases h53 : i < 53
    · have hi : i < 64 := by omega
      have hlt : i < 52 := by omega
      simp [hi, hlt, Ne.symm h52]
    · have hbit : m.testBit i = false :=
        Nat.testBit_lt_two_pow
          (lt_of_lt_of_le hm (Nat.pow_le_pow_right (by norm_num) (by omega)))
      have hge : ¬ i < 52 := by omega
      simp [hbit, hge]

/-- The packing helper evaluated on in-range fields: with 0 ≤ e < 2 ^ 11 and
m < 2 ^ 64 neither cast nor shift wraps. -/
theorem number_eq_fields (neg : Bool) (m : Nat) (e : Int)
    (hm : m < 2 ^ 64) (he0 : 0 ≤ e) (he1 : e < 2 ^ 11) :
    number neg m e = signOnlyPattern neg ||| e.toNat <<< mantissaBits ||| m := by
  have h1 : e % (2 ^ 64 : Int) = e := Int.emod_eq_of_lt he0 (by omega)
  have h2 : e.toNat * 2 ^ mantissaBits < 2 ^ 64 := by
    have hlt : e.toNat < 2 ^ 11 := by omega
    have hstep : e.toNat * 2 ^ mantissaBits < 2 ^ 11 * 2 ^ mantissaBits :=
      (Nat.mul_lt_mul_right (by norm_num [mantissaBits])).mpr hlt
    have hfin : (2 ^ 11 : Nat) * 2 ^ mantissaBits ≤ 2 ^ 64 := by norm_num [mantissaBits]
    omega
  simp only [number, signOnlyPattern, h1, Nat.mod_eq_of_lt h2, Nat.mod_eq_of_lt hm,
    Nat.shiftLeft_eq]

/-- Claim C5: under the data-model invariant of the spec (the binary
mantissa is narrowed to mantissaBits + 1 bits before packing, and a number
carrying the implicit leading bit has an exponent at least the subnormal
base), toIEEE754 packs by exactly the claimed case analysis. -/
theorem toIEEE754_case_analysis (b : BinaryNumber)
    (hmant : b.mantissa < 2 ^ (mantissaBits + 1))
    (hexp : Nat.testBit b.mantissa mantissaBits = true → exponentSubnormalBase ≤ b.exponent) :
    toIEEE754 b = packedPerClaim b := by
  unfold toIEEE754 packedPerClaim
  by_cases h1 : b.mantissa = 0 ∨ b.exponent < exponentSubnormalMin
  · rw [if_pos h1, if_pos h1, zero_eq_sign]
  · rw [if_neg h1, if_neg h1]
    by_cases h2 : exponentMax < b.exponent
    · rw [if_pos h2, if_pos h2, infinity_eq_fields]
    · rw [if_neg h2, if_neg h2]
      by_cases h3 : Nat.testBit b.mantissa mantissaBits
      · rw [if_pos h3, if_pos h3]
        have he := hexp h3
        rw [land_not_bit52 b.mantissa hmant]
        rw [number_eq_fields b.negative _ _
          (lt_trans (Nat.mod_lt _ (by norm_num [mantissaBits])) (by norm_num [mantissaBits]))
          (by unfold exponentSubnormalBase at he; unfold exponentBase; omega)
          (by unfold exponentMax at h2; unfold exponentBase; omega)]
      · rw [if_neg h3, if_neg h3]
        rw [number_eq_fields b.negative _ 0
          (lt_trans hmant (by norm_num [mantissaBits])) (le_refl 0) (by norm_num)]
        simp

/-- Witness for toIEEE754_case_analysis at the binary number 1.0
(mantissa 2 ^ 52, exponent 0), whose pattern is 0x3FF0000000000000. -/
theorem toIEEE754_case_analysis_witness :
    toIEEE754 ⟨false, 2 ^ 52, 0⟩ = packedPerClaim ⟨false, 2 ^ 52, 0⟩ ∧
    packedPerClaim ⟨false, 2 ^ 52, 0⟩ = 0x3FF0000000000000 :=
  ⟨toIEEE754_case_analysis ⟨false, 2 ^ 52, 0⟩ (by decide) (by decide), by decide⟩

/-! ### Claim C8: the error flag of the full conversion -/

/-- Claim C8: whenever the full conversion produces a result, the error
flag is set exactly when the numeric grammar does not consume the entire
input and the input is none of the recognized spellings Inf, +Inf, -Inf,
NaN compared case-insensitively; the spellings are tried only when the
numeric parse did not consume everything, and on them the conversion clears
the error and returns the corresponding infinity or NaN pattern. -/
theorem toAnyDouble_error_flag (fuel : Nat) (s : List Nat) (v : Nat) (err : Bool)
    (h : toAnyDouble fuel s = some (v, err)) :
    (err = true ↔ ((parseMantissaExponent s).1 ≠ s.length ∧
      eqNoCase s infCodes = false ∧ eqNoCase s plusInfCodes = false ∧
      eqNoCase s negInfCodes = false ∧ eqNoCase s nanCodes = false)) ∧
    ((parseMantissaExponent s).1 ≠ s.length →
      ((eqNoCase s infCodes || eqNoCase s plusInfCodes) = true →
        v = infinity false ∧ err = false) ∧
      ((eqNoCase s infCodes || eqNoCase s plusInfCodes) = false →
        eqNoCase s negInfCodes = true → v = infinity true ∧ err = false) ∧
      ((eqNoCase s infCodes || eqNoCase s plusInfCodes) = false →
        eqNoCase s negInfCodes = false → eqNoCase s nanCodes = true →
        v = nan ∧ err = false)) := by
  unfold toAnyDouble at h
  by_cases h1 : (parseMantissaExponent s).1 = s.length
  · rw [if_pos h1] at h
    rw [Option.map_eq_some'] at h
    obtain ⟨b, -, hb⟩ := h
    have herr : err = false := by
      have := congrArg Prod.snd hb
      simpa using this
    subst herr
    exact ⟨by simp [h1], fun hne => absurd h1 hne⟩
  · rw [if_neg h1] at h
    by_cases h2 : (eqNoCase s infCodes || eqNoCase s plusInfCodes) = true
    · rw [if_pos h2] at h
      have hve : v = infinity false ∧ err = false := by
        have h' := Option.some.inj h
        exact ⟨(congrArg Prod.fst h').symm, (congrArg Prod.snd h').symm⟩
      obtain ⟨hv, herr⟩ := hve
      subst hv; subst herr
      constructor
      · refine iff_of_false (by simp) ?_
        intro hc
        rcases Bool.or_eq_true_iff.mp h2 with ht | ht
        · rw [hc.2.1] at ht; exact Bool.false_ne_true ht
        · rw [hc.2.2.1] at ht; exact Bool.false_ne_true ht
      · intro _
        refine ⟨fun _ => ⟨rfl, rfl⟩, fun hf => ?_, fun hf => ?_⟩ <;>
          exact absurd h2 (by simp [hf])
    · rw [if_neg h2] at h
      have h2' : (eqNoCase s infCodes || eqNoCase s plusInfCodes) = false :=
        Bool.not_eq_true _ ▸ Bool.eq_false_iff.mpr h2
      by_cases h3 : eqNoCase s negInfCodes = true
      · rw [if_pos h3] at h
        have h' := Option.some.inj h
        have hv : v = infinity true := (congrArg Prod.fst h').symm
        have herr : err = false := (congrArg Prod.snd h').symm
        subst hv; subst herr
        constructor
        · refine iff_of_false (by simp) ?_
          intro hc
          rw [hc.2.2.2.1] at h3
          exact Bool.false_ne_true h3
        · intro _
          refine ⟨fun ht => absurd ht (by simp [h2']), fun _ _ => ⟨rfl, rfl⟩,
            fun _ hf _ => ?_⟩
          rw [hf] at h3
          exact absurd h3 Bool.false_ne_true
      · rw [if_neg h3] at h
        have h3' : eqNoCase s negInfCodes = false := Bool.eq_false_iff.mpr h3
        by_cases h4 : eqNoCase s nanCodes = true
        · rw [if_pos h4] at h
          have h' := Option.some.inj h
          have hv : v = nan := (congrArg Prod.fst h').symm
          have herr : err = false := (congrArg Prod.snd h').symm
          subst hv; subst herr
          constructor
          · refine iff_of_false (by simp) ?_
            intro hc
            rw [hc.2.2.2.2] at h4
            exact Bool.false_ne_true h4
          · intro _
            refine ⟨fun ht => absurd ht (by simp [h2']), fun _ hf => ?_,
              fun _ _ _ => ⟨rfl, rfl⟩⟩
            rw [hf] at h3'
            exact absurd h3' (by simp)
        · rw [if_neg h4] at h
          have h4' : eqNoCase s nanCodes = false := Bool.eq_false_iff.mpr h4
          have h' := Option.some.inj h
          have herr : err = true := (congrArg Prod.snd h').symm
          subst herr
          constructor
          · refine iff_of_true rfl ?_
            refine ⟨h1, ?_, ?_, h3', h4'⟩ <;>
              [exact (Bool.or_eq_false_iff.mp h2').1; exact (Bool.or_eq_false_iff.mp h2').2]
          · intro _
            refine ⟨fun ht => absurd ht (by simp [h2']), fun _ hf => ?_, fun _ _ hf => ?_⟩
            · rw [hf] at h3'; exact absurd h3' (by simp)
            · rw [hf] at h4'; exact absurd h4' (by simp)

/-- Witness for toAnyDouble_error_flag at the input NaN. -/
theorem toAnyDouble_error_flag_witness :
    (false = true ↔ ((parseMantissaExponent [78, 97, 78]).1 ≠ [78, 97, 78].length ∧
      eqNoCase [78, 97, 78] infCodes = false ∧ eqNoCase [78, 97, 78] plusInfCodes = false ∧
      eqNoCase [78, 97, 78] negInfCodes = false ∧ eqNoCase [78, 97, 78] nanCodes = false)) ∧
    ((parseMantissaExponent [78, 97, 78]).1 ≠ [78, 97, 78].length →
      ((eqNoCase [78, 97, 78] infCodes || eqNoCase [78, 97, 78] plusInfCodes) = true →
        nan = infinity false ∧ false = false) ∧
      ((eqNoCase [78, 97, 78] infCodes || eqNoCase [78, 97, 78] plusInfCodes) = false →
        eqNoCase [78, 97, 78] negInfCodes = true → nan = infinity true ∧ false = false) ∧
      ((eqNoCase [78, 97, 78] infCodes || eqNoCase [78, 97, 78] plusInfCodes) = false →
        eqNoCase [78, 97, 78] negInfCodes = false → eqNoCase [78, 97, 78] nanCodes = true →
        nan = nan ∧ false = false)) :=
  toAnyDouble_error_flag 1 [78, 97, 78] nan false (by decide)

/-! ### Claim C9: the invariant established by convertTwobase -/

/-- Closed form of divideBy: truncation, except that the exact half-way
case rounds to the even neighbour. -/
theorem divideBy_eq (n d : Nat) :
    divideBy n d =
      if n % d = d / 2 then (if n / d % 2 = 0 then n / d else n / d + 1)
      else n / d := by
  by_cases h : n % d = d / 2
  · rw [divideBy, if_neg (by simp [h]), if_pos h]
    simp only [Nat.and_one_is_mod]
    by_cases h2 : n / d % 2 = 0 <;> simp [h2]
  · rw [divideBy, if_pos (by simpa using h), if_neg h]

theorem divideBy_two_le (v : Nat) : divideBy v 2 ≤ v / 2 + 1 := by
  rw [divideBy_eq]
  split
  · split <;> omega
  · omega

/-- The invariant Claim C9 states for the output of convertTwobase. -/
def binaryInvariant (b : BinaryNumber) : Prop :=
  b.mantissa < 2 ^ (mantissaBits + 1) ∧ exponentMin ≤ b.exponent ∧
    (Nat.testBit b.mantissa mantissaBits = false →
      b.mantissa = 0 ∨ b.exponent = exponentSubnormalBase)

/-- The assertion conditions executed by toIEEE754 on a binary number that
reaches the normal or subnormal branch, together with the assert inside
number on the mantissa part it is handed there. -/
def toIEEE754AssertsHold (b : BinaryNumber) : Prop :=
  (b.mantissa ≠ 0 ∧ exponentSubnormalMin ≤ b.exponent ∧ b.exponent ≤ exponentMax) →
    (Nat.testBit b.mantissa mantissaBits = true →
      b.exponent ≤ exponentMax ∧ exponentMin ≤ b.exponent ∧
      b.exponent + exponentBase ≠ 0 ∧
      (b.mantissa &&& ((2 ^ 64 - 1) ^^^ 2 ^ mantissaBits)) % 2 ^ 64 < 2 ^ mantissaBits) ∧
    (Nat.testBit b.mantissa mantissaBits = false →
      b.exponent = exponentSubnormalBase ∧ b.mantissa % 2 ^ 64 < 2 ^ mantissaBits)

theorem testBit52_true_of_ge (v : Nat) (h1 : 2 ^ mantissaBits ≤ v)
    (h2 : v < 2 ^ (mantissaBits + 1)) : Nat.testBit v mantissaBits = true := by
  rw [Nat.testBit_to_div_mod]
  simp only [mantissaBits] at h1 h2 ⊢
  have hd : v / 2 ^ 52 % 2 = 1 := by omega
  exact decide_eq_true hd

theorem lt_pow52_of_testBit52_false (v : Nat) (h1 : v < 2 ^ (mantissaBits + 1))
    (h2 : Nat.testBit v mantissaBits = false) : v < 2 ^ mantissaBits := by
  rw [Nat.testBit_to_div_mod] at h2
  simp only [mantissaBits] at h1 ⊢
  simp only [mantissaBits, decide_eq_false_iff_not] at h2
  omega

theorem normalizeDown_lt (fuel : Nat) : ∀ (v : Nat) (p : Int) (v' : Nat) (p' : Int),
    normalizeDown fuel v p = some (v', p') → v' < 2 ^ (mantissaBits + 1) := by
  induction fuel with
  | zero =>
    intro v p v' p' h
    simp only [normalizeDown] at h
    split at h
    · exact absurd h (by simp)
    · obtain ⟨hv, -⟩ := Prod.mk.injEq .. ▸ Option.some.inj h
      omega
  | succ f ih =>
    intro v p v' p' h
    simp only [normalizeDown] at h
    split at h
    · exact ih _ _ _ _ h
    · obtain ⟨hv, -⟩ := Prod.mk.injEq .. ▸ Option.some.inj h
      omega

theorem normalizeUp_lt (fuel : Nat) : ∀ (v : Nat) (p two : Int) (v' : Nat) (p' : Int),
    v < 2 ^ (mantissaBits + 1) → normalizeUp fuel v p two = some (v', p') →
    v' < 2 ^ (mantissaBits + 1) := by
  induction fuel with
  | zero =>
    intro v p two v' p' hv h
    simp only [normalizeUp] at h
    split at h
    · exact absurd h (by simp)
    · obtain ⟨hv', -⟩ := Prod.mk.injEq .. ▸ Option.some.inj h
      omega
  | succ f ih =>
    intro v p two v' p' hv h
    simp only [normalizeUp] at h
    split at h
    · next hc =>
      refine ih _ _ _ _ _ ?_ h
      simp only [mantissaBits] at hc ⊢
      omega
    · obtain ⟨hv', -⟩ := Prod.mk.injEq .. ▸ Option.some.inj h
      omega

theorem normalizeUp_post (fuel : Nat) : ∀ (v : Nat) (p two : Int) (v' : Nat) (p' : Int),
    normalizeUp fuel v p two = some (v', p') →
    ¬(v' < 2 ^ mantissaBits ∧ exponentMin < two + p') := by
  induction fuel with
  | zero =>
    intro v p two v' p' h
    simp only [normalizeUp] at h
    split at h
    · exact absurd h (by simp)
    · next hc =>
      obtain ⟨hv', hp'⟩ := Prod.mk.injEq .. ▸ Option.some.inj h
      subst hv'; subst hp'
      exact hc
  | succ f ih =>
    intro v p two v' p' h
    simp only [normalizeUp] at h
    split at h
    · exact ih _ _ _ _ _ h
    · next hc =>
      obtain ⟨hv', hp'⟩ := Prod.mk.injEq .. ▸ Option.some.inj h
      subst hv'; subst hp'
      exact hc

theorem clampExponentLow_ge (fuel : Nat) : ∀ (v : Nat) (two : Int) (v' : Nat) (two' : Int),
    clampExponentLow fuel v two = some (v', two') → exponentMin ≤ two' := by
  induction fuel with
  | zero =>
    intro v two v' two' h
    simp only [clampExponentLow] at h
    split at h
    · exact absurd h (by simp)
    · next hc =>
      obtain ⟨-, ht⟩ := Prod.mk.injEq .. ▸ Option.some.inj h
      omega
  | succ f ih =>
    intro v two v' two' h
    simp only [clampExponentLow] at h
    split at h
    · exact ih _ _ _ _ h
    · next hc =>
      obtain ⟨-, ht⟩ := Prod.mk.injEq .. ▸ Option.some.inj h
      omega

theorem clampExponentLow_lt (fuel : Nat) : ∀ (v : Nat) (two : Int) (v' : Nat) (two' : Int),
    v < 2 ^ (mantissaBits + 1) → clampExponentLow fuel v two = some (v', two') →
    v' < 2 ^ (mantissaBits + 1) := by
  induction fuel with
  | zero =>
    intro v two v' two' hv h
    simp only [clampExponentLow] at h
    split at h
    · exact absurd h (by simp)
    · obtain ⟨hv', -⟩ := Prod.mk.injEq .. ▸ Option.some.inj h
      omega
  | succ f ih =>
    intro v two v' two' hv h
    simp only [clampExponentLow] at h
    split at h
    · refine ih _ _ _ _ ?_ h
      have hle := divideBy_two_le v
      simp only [mantissaBits] at hv ⊢
      omega
    · obtain ⟨hv', -⟩ := Prod.mk.injEq .. ▸ Option.some.inj h
      omega

theorem clampExponentLow_id (fuel : Nat) (v : Nat) (two : Int)
    (h : ¬ two < exponentMin) : clampExponentLow fuel v two = some (v, two) := by
  cases fuel <;> simp [clampExponentLow, h]

theorem clampExponentLow_exact (fuel : Nat) : ∀ (v : Nat) (two : Int) (v' : Nat) (two' : Int),
    two ≤ exponentMin → clampExponentLow fuel v two = some (v', two') →
    two' = exponentMin := by
  induction fuel with
  | zero =>
    intro v two v' two' hle h
    simp only [clampExponentLow] at h
    split at h
    · exact absurd h (by simp)
    · next hc =>
      obtain ⟨-, ht⟩ := Prod.mk.injEq .. ▸ Option.some.inj h
      omega
  | succ f ih =>
    intro v two v' two' hle h
    simp only [clampExponentLow] at h
    split at h
    · next hc => exact ih _ _ _ _ (by omega) h
    · next hc =>
      obtain ⟨-, ht⟩ := Prod.mk.injEq .. ▸ Option.some.inj h
      omega

/-- The tail of convertTwobase establishes the invariant whatever state the
ten-exponent elimination produced. -/
theorem finishTwobase_invariant (fuel : Nat) (neg : Bool) (s : ConvState) (b : BinaryNumber)
    (h : finishTwobase fuel neg s = some b) : binaryInvariant b := by
  unfold finishTwobase at h
  by_cases hv : s.varmantissa = 0
  · rw [if_pos hv] at h
    obtain rfl := (Option.some.inj h).symm
    refine ⟨by norm_num [mantissaBits], by norm_num [exponentMin], fun _ => Or.inl rfl⟩
  · rw [if_neg hv] at h
    rw [Option.bind_eq_some] at h
    obtain ⟨⟨v1, p1⟩, hd, h⟩ := h
    rw [Option.bind_eq_some] at h
    obtain ⟨⟨v2, p2⟩, hu, h⟩ := h
    rw [Option.map_eq_some'] at h
    obtain ⟨⟨v3, t3⟩, hc, hb⟩ := h
    obtain rfl := hb.symm
    have hv1 : v1 < 2 ^ (mantissaBits + 1) := normalizeDown_lt fuel _ _ _ _ hd
    have hv2 : v2 < 2 ^ (mantissaBits + 1) := normalizeUp_lt fuel _ _ _ _ _ hv1 hu
    have hpost := normalizeUp_post fuel _ _ _ _ _ hu
    have hv3 : v3 < 2 ^ (mantissaBits + 1) := clampExponentLow_lt fuel _ _ _ _ hv2 hc
    have ht3 : exponentMin ≤ t3 := clampExponentLow_ge fuel _ _ _ _ hc
    have hmod : v3 % 2 ^ 64 = v3 :=
      Nat.mod_eq_of_lt (by simp only [mantissaBits] at hv3; omega)
    refine ⟨?_, ht3, ?_⟩
    · show v3 % 2 ^ 64 < 2 ^ (mantissaBits + 1)
      rw [hmod]
      exact hv3
    · intro hbit
      have hbit3 : Nat.testBit v3 mantissaBits = false := by
        rw [← hmod]
        exact hbit
      by_cases hlow : s.twoexponent + p2 < exponentMin
      · right
        show t3 = exponentSubnormalBase
        have hex := clampExponentLow_exact fuel _ _ _ _ (le_of_lt hlow) hc
        simp only [exponentMin] at hex
        simp only [exponentSubnormalBase]
        omega
      · have hid := clampExponentLow_id fuel v2 (s.twoexponent + p2) hlow
        rw [hid] at hc
        obtain ⟨hv23, ht23⟩ := Prod.mk.injEq .. ▸ Option.some.inj hc
        rcases not_and_or.mp hpost with hbig | hle
        · push_neg at hbig
          have hset := testBit52_true_of_ge v2 hbig hv2
          rw [hv23] at hset
          rw [hset] at hbit3
          exact absurd hbit3 (by simp)
        · right
          show t3 = exponentSubnormalBase
          simp only [exponentMin] at hle hlow
          simp only [exponentSubnormalBase]
          omega

/-- Claim C9: whenever convertTwobase returns a BinaryNumber, it satisfies
the invariant (mantissa below 2 ^ (mantissaBits + 1), exponent at least
exponentMin, and a cleared implicit leading bit forces either a zero
mantissa or the subnormal base exponent), so all assertions inside
toIEEE754 and the assertion inside number hold on it. -/
theorem convertTwobase_invariant (fuel : Nat) (d : DecimalNumber) (b : BinaryNumber)
    (h : convertTwobase fuel d = some b) :
    binaryInvariant b ∧ toIEEE754AssertsHold b := by
  have hinv : binaryInvariant b := by
    unfold convertTwobase at h
    rw [Option.bind_eq_some] at h
    obtain ⟨s, -, hf⟩ := h
    exact finishTwobase_invariant fuel d.negative s b hf
  refine ⟨hinv, ?_⟩
  obtain ⟨hm, he, hsub⟩ := hinv
  rintro ⟨hnz, -, hmax⟩
  constructor
  · intro hbit
    refine ⟨hmax, he, ?_, ?_⟩
    · simp only [exponentBase, exponentMin] at he ⊢
      omega
    · rw [land_not_bit52 b.mantissa hm]
      have h1 : b.mantissa % 2 ^ mantissaBits < 2 ^ mantissaBits :=
        Nat.mod_lt _ (by norm_num [mantissaBits])
      have h2 : b.mantissa % 2 ^ mantissaBits % 2 ^ 64 = b.mantissa % 2 ^ mantissaBits :=
        Nat.mod_eq_of_lt (by simp only [mantissaBits] at h1 ⊢; omega)
      rw [h2]
      exact h1
  · intro hbit
    rcases hsub hbit with hz | hbase
    · exact absurd hz hnz
    · refine ⟨hbase, ?_⟩
      have h1 : b.mantissa < 2 ^ mantissaBits := lt_pow52_of_testBit52_false _ hm hbit
      rw [Nat.mod_eq_of_lt (by simp only [mantissaBits] at h1 ⊢; omega)]
      exact h1

/-- Witness for convertTwobase_invariant at the decimal number 1, which
converts to mantissa 2 ^ 52 with exponent 0. -/
theorem convertTwobase_invariant_witness :
    binaryInvariant ⟨false, 2 ^ 52, 0⟩ ∧ toIEEE754AssertsHold ⟨false, 2 ^ 52, 0⟩ :=
  convertTwobase_invariant 100 ⟨false, 1, 0⟩ ⟨false, 2 ^ 52, 0⟩ (by decide)

/-! ### Claim C10: the empty input -/

/-- Claim C10: on the empty input parseMantissaExponent returns consumed
length 0 (its failure signal), yet the full conversion reports no error and
returns the +0.0 bit pattern, because the consumed length equals the input
length. -/
theorem toAnyDouble_empty_input :
    parseMantissaExponent [] = (0, ⟨false, 0, 0⟩) ∧
    toAnyDouble 1 [] = some (0, false) := by decide

end Ieee754toy
